import Mathlib

/-!
Verification of the command dispatcher in `src/main.cpp` (radosgw-admin).

The core under specification is `CommandsParser`: a registry of commands,
each carrying an identifier, a token sequence and a help text, together with
`register_command` (append a definition) and `recognize_command` (sort the
registry lazily, then narrow a candidate window over the sorted list with one
lower-bound / upper-bound pair per input token, returning the unique surviving
definition or null).

Modelling choices, each matching the C++ source:
* a token (`std::string`) is its character sequence, `List Char`, compared
  lexicographically exactly as `std::string::operator<` compares byte-wise;
* `std::vector<std::string>` token sequences are `List Token`, compared with
  `std::lexicographical_compare` semantics (`lexLt`);
* the `Command` class keeps its `id_` (the `ECommand` enum value, modelled as
  `Nat`), `text_` and `help_` fields; the side-effecting `callback_` plays no
  part in registration or resolution and is omitted;
* `std::sort` is modelled by `List.insertionSort` over the same comparator (a
  comparison sort producing a sorted permutation, which is all `std::sort`
  guarantees);
* `std::lower_bound` / `std::upper_bound` on a partitioned range return the
  first position whose element fails the comparison; on lists this is
  `dropWhile` / `takeWhile` of the window;
* the `std::logic_error` thrown by `Command::Command` on an empty token list
  is modelled by `register_command` returning `Except`: on an error the caller
  keeps its previous registry, so nothing is appended by a failing call;
* `recognize_command` is a non-const member function (it sorts the vector in
  place), so it is modelled with explicit state passing: it returns the
  recognized command together with the parser state after the call.
-/

namespace RadosgwAdmin

/-- One word of a command path: a C++ `std::string`, modelled as its character
sequence. -/
abbrev Token := List Char

/-- `std::lexicographical_compare` over a strict element comparison `lt`:
the generic lexicographic strict order used by both `std::string::operator<`
(over characters) and `std::vector<std::string>::operator<` (over tokens). -/
def lexLt {α : Type} (lt : α → α → Bool) : List α → List α → Bool
  | _, [] => false
  | [], _ :: _ => true
  | a :: as, b :: bs => if lt a b then true else if lt b a then false else lexLt lt as bs

/-- Character comparison underlying `std::string::operator<`. -/
def charLt (a b : Char) : Bool := decide (a < b)

/-- `std::string::operator<`: lexicographic on characters. -/
def strLt : Token → Token → Bool := lexLt charLt

/-- `std::vector<std::string>::operator<`: lexicographic on tokens, as used by
the `std::sort` comparator in `CommandsParser::sort_`. -/
def textLt : List Token → List Token → Bool := lexLt strLt

/-- The `Command` class of `src/main.cpp`: identifier (`ECommand` enum value,
modelled as `Nat`), token sequence `text_`, help text `help_`.  The
side-effecting `callback_` field takes no part in registration or resolution
and is omitted. -/
structure Command where
  id : Nat
  text : List Token
  help : String
deriving DecidableEq

/-- The `CommandsParser` state: the vector `commands_` and the lazy-sort flag
`commands_is_sorted`. -/
structure CommandsParser where
  commands : List Command
  commands_is_sorted : Bool
deriving DecidableEq

/-- The comparator passed to `std::sort` in `CommandsParser::sort_` is the
strict order `c1->get_text() < c2->get_text()`; sorting by a strict order `<`
arranges the list so that consecutive elements satisfy `¬(b < a)`, which is
this non-strict comparison. -/
def cmdLe (c1 c2 : Command) : Bool := !(textLt c2.text c1.text)

/-- `cmdLe` as a relation, the order in which `sort_` arranges the registry. -/
def CmdLeP (a b : Command) : Prop := cmdLe a b = true

instance : DecidableRel CmdLeP := fun a b => inferInstanceAs (Decidable (cmdLe a b = true))

/-- Registration-time failure, §7 of the specification.  `EmptyTokens` models
the `std::logic_error("command-text is empty")` thrown by `Command::Command`;
the source contains no duplicate-registration check and hence no second error
case. -/
inductive DefinitionError where
  | EmptyTokens
deriving DecidableEq

/-- `CommandsParser::register_command`: constructs a `Command` (whose
constructor rejects an empty token sequence) and appends it to `commands_`
(`push_back`), clearing the sorted flag.  The throw is modelled as `Except`:
on `.error`, the caller's registry is unchanged since no new state is
returned. -/
def register_command (p : CommandsParser) (command_id : Nat) (tokens : List Token)
    (help : String) : Except DefinitionError CommandsParser :=
  if tokens.isEmpty then
    .error .EmptyTokens
  else
    .ok { commands := p.commands ++ [{ id := command_id, text := tokens, help := help }],
          commands_is_sorted := false }

/-- `CommandsParser::sort_`: if the sorted flag is clear, sort `commands_` by
`get_text()` and set the flag. -/
def sort_ (p : CommandsParser) : CommandsParser :=
  if p.commands_is_sorted then p
  else { commands := p.commands.insertionSort CmdLeP, commands_is_sorted := true }

/-- The comparator of the `std::lower_bound` call in `recognize_command`:
`token_num < cmd->get_text().size() ? cmd->get_text()[token_num] < key : true`. -/
def lbLess (key : Token) (token_num : Nat) (cmd : Command) : Bool :=
  if token_num < cmd.text.length then strLt (cmd.text.getD token_num []) key else true

/-- The comparator of the `std::upper_bound` call in `recognize_command`:
`token_num < cmd->get_text().size() ? key < cmd->get_text()[token_num] : false`. -/
def ubGreater (key : Token) (token_num : Nat) (cmd : Command) : Bool :=
  if token_num < cmd.text.length then strLt key (cmd.text.getD token_num []) else false

/-- The token loop of `CommandsParser::recognize_command`, carrying the
candidate window `[it_begin, it_end)` as a list.  Per token: narrow the lower
bound (`dropWhile` of the lower-bound comparator), return null on an empty
window, narrow the upper bound (`takeWhile` of the negated upper-bound
comparator), return null on an empty window.  After all tokens: return the
sole element if `std::distance(it_begin, it_end) == 1`, else null. -/
def recognizeLoop : List Token → Nat → List Command → Option Command
  | [], _, window => if window.length = 1 then window.head? else none
  | key :: rest, token_num, window =>
    let w1 := window.dropWhile (lbLess key token_num)
    if w1.isEmpty then none
    else
      let w2 := w1.takeWhile fun cmd => !(ubGreater key token_num cmd)
      if w2.isEmpty then none
      else recognizeLoop rest (token_num + 1) w2

/-- `CommandsParser::recognize_command`: sort lazily, then run the narrowing
loop over the whole sorted vector.  The C++ member function mutates the parser
(it sorts in place), so the model returns the result together with the parser
state after the call; the returned `Option Command` models the
`const Command*` result (`none` = `nullptr`). -/
def recognize_command (p : CommandsParser) (command_tokens : List Token) :
    Option Command × CommandsParser :=
  let ps := sort_ p
  (recognizeLoop command_tokens 0 ps.commands, ps)

/-- The three commands registered by `register_commands()` in `src/main.cpp`. -/
def userCreateCmd : Command :=
  { id := 0, text := ["user".data, "create".data], help := "create a new user" }

/-- `user delete` command of `register_commands()`. -/
def userDeleteCmd : Command :=
  { id := 1, text := ["user".data, "delete".data], help := "delete a user" }

/-- `user info` command of `register_commands()`. -/
def userInfoCmd : Command :=
  { id := 2, text := ["user".data, "info".data], help := "get user info" }

/-- `register_commands()` of `src/main.cpp`: three registrations starting from
a default-constructed parser (empty vector, flag clear). -/
def register_commands : Except DefinitionError CommandsParser := do
  let p0 : CommandsParser := { commands := [], commands_is_sorted := false }
  let p1 ← register_command p0 0 ["user".data, "create".data] "create a new user"
  let p2 ← register_command p1 1 ["user".data, "delete".data] "delete a user"
  register_command p2 2 ["user".data, "info".data] "get user info"

/-- The registry state produced by `register_commands()`. -/
def mainParser : CommandsParser :=
  { commands := [userCreateCmd, userDeleteCmd, userInfoCmd], commands_is_sorted := false }

theorem register_commands_eq : register_commands = .ok mainParser := rfl

/-- A registry holding only `user create`. -/
def singleParser : CommandsParser :=
  { commands := [userCreateCmd], commands_is_sorted := false }

/-- A registry holding a standalone `user` command next to `user create`. -/
def shadowParser : CommandsParser :=
  { commands := [{ id := 3, text := ["user".data], help := "standalone" }, userCreateCmd],
    commands_is_sorted := false }

/-- A registry whose vector is not yet in sorted order. -/
def unsortedParser : CommandsParser :=
  { commands := [userDeleteCmd, userCreateCmd], commands_is_sorted := false }

/-- Two token sequences agree when neither disagrees with the other at any
position both possess, that is, one extends the other. -/
def agreesTok (u v : List Token) : Bool := u.isPrefixOf v || v.isPrefixOf u

/-! ### The lexicographic comparison is a strict linear order -/

theorem lexLt_nil_right {α : Type} (lt : α → α → Bool) (s : List α) :
    lexLt lt s [] = false := by
  cases s <;> rfl

theorem lexLt_cons {α : Type} (lt : α → α → Bool) (a b : α) (as bs : List α) :
    lexLt lt (a :: as) (b :: bs)
      = if lt a b then true else if lt b a then false else lexLt lt as bs := rfl

theorem ltIrrefl {α : Type} (lt : α → α → Bool)
    (hasym : ∀ a b, lt a b = true → lt b a = false) (a : α) : lt a a = false := by
  cases h : lt a a
  · rfl
  · have h2 := hasym a a h
    rw [h] at h2
    exact h2

theorem lexLt_nil_false {α : Type} (lt : α → α → Bool) (s : List α)
    (h : lexLt lt [] s = false) : s = [] := by
  cases s with
  | nil => rfl
  | cons b bs => exact absurd h (by simp [lexLt])

theorem lexLt_asymm {α : Type} (lt : α → α → Bool)
    (hasym : ∀ a b, lt a b = true → lt b a = false) :
    ∀ s t, lexLt lt s t = true → lexLt lt t s = false := by
  intro s
  induction s with
  | nil =>
    intro t _
    exact lexLt_nil_right lt t
  | cons a as ih =>
    intro t h
    cases t with
    | nil => rw [lexLt_nil_right] at h; exact absurd h (by simp)
    | cons b bs =>
      rw [lexLt_cons] at h
      rw [lexLt_cons]
      cases hab : lt a b with
      | true => rw [hasym a b hab]; simp [hab]
      | false =>
        rw [hab] at h
        cases hba : lt b a with
        | true => rw [hba] at h; simp at h
        | false =>
          rw [hba] at h
          simp only [Bool.false_eq_true, if_false] at h
          simp [hba, hab, ih bs h]

theorem lexLt_conn {α : Type} (lt : α → α → Bool)
    (hconn : ∀ a b, lt a b = false → lt b a = false → a = b) :
    ∀ s t, lexLt lt s t = false → lexLt lt t s = false → s = t := by
  intro s
  induction s with
  | nil =>
    intro t h1 _
    exact (lexLt_nil_false lt t h1).symm
  | cons a as ih =>
    intro t h1 h2
    cases t with
    | nil => exact absurd h2 (by simp [lexLt])
    | cons b bs =>
      rw [lexLt_cons] at h1 h2
      cases hab : lt a b with
      | true => rw [hab] at h1; simp at h1
      | false =>
        cases hba : lt b a with
        | true => rw [hba] at h2; simp at h2
        | false =>
          rw [hab, hba] at h1
          rw [hab, hba] at h2
          simp only [Bool.false_eq_true, if_false] at h1 h2
          rw [hconn a b hab hba, ih bs h1 h2]

theorem lexLt_trans {α : Type} (lt : α → α → Bool)
    (hconn : ∀ a b, lt a b = false → lt b a = false → a = b)
    (htrans : ∀ a b c, lt a b = true → lt b c = true → lt a c = true) :
    ∀ s t u, lexLt lt s t = true → lexLt lt t u = true → lexLt lt s u = true := by
  intro s
  induction s with
  | nil =>
    intro t u h1 h2
    cases u with
    | nil => rw [lexLt_nil_right] at h2; exact absurd h2 (by simp)
    | cons c cs => rfl
  | cons a as ih =>
    intro t u h1 h2
    cases t with
    | nil => rw [lexLt_nil_right] at h1; exact absurd h1 (by simp)
    | cons b bs =>
      cases u with
      | nil => rw [lexLt_nil_right] at h2; exact absurd h2 (by simp)
      | cons c cs =>
        rw [lexLt_cons] at h1 h2
        rw [lexLt_cons]
        cases hab : lt a b with
        | true =>
          cases hbc : lt b c with
          | true => simp [htrans a b c hab hbc]
          | false =>
            rw [hbc] at h2
            cases hcb : lt c b with
            | true => rw [hcb] at h2; simp at h2
            | false =>
              rw [hconn b c hbc hcb] at hab
              simp [hab]
        | false =>
          rw [hab] at h1
          cases hba : lt b a with
          | true => rw [hba] at h1; simp at h1
          | false =>
            rw [hba] at h1
            simp only [Bool.false_eq_true, if_false] at h1
            have hab2 : a = b := hconn a b hab hba
            subst hab2
            cases hac : lt a c with
            | true => simp [hac]
            | false =>
              rw [hac] at h2
              cases hca : lt c a with
              | true => rw [hca] at h2; simp at h2
              | false =>
                rw [hca] at h2
                simp only [Bool.false_eq_true, if_false] at h2
                simp [hac, hca, ih bs cs h1 h2]

theorem lexLt_append {α : Type} (lt : α → α → Bool)
    (hasym : ∀ a b, lt a b = true → lt b a = false) :
    ∀ d s t, lexLt lt (d ++ s) (d ++ t) = lexLt lt s t := by
  intro d
  induction d with
  | nil => intro s t; rfl
  | cons a d ih =>
    intro s t
    rw [List.cons_append, List.cons_append, lexLt_cons, ltIrrefl lt hasym a]
    simp [ih]

theorem charLt_asymm (a b : Char) (h : charLt a b = true) : charLt b a = false := by
  simp only [charLt, decide_eq_true_eq] at h
  simp only [charLt, decide_eq_false_iff_not]
  exact lt_asymm h

theorem charLt_conn (a b : Char) (h1 : charLt a b = false) (h2 : charLt b a = false) :
    a = b := by
  simp only [charLt, decide_eq_false_iff_not] at h1 h2
  exact le_antisymm (le_of_not_lt h2) (le_of_not_lt h1)

theorem charLt_trans (a b c : Char) (h1 : charLt a b = true) (h2 : charLt b c = true) :
    charLt a c = true := by
  simp only [charLt, decide_eq_true_eq] at h1 h2 ⊢
  exact lt_trans h1 h2

theorem strLt_asymm (s t : Token) (h : strLt s t = true) : strLt t s = false :=
  lexLt_asymm charLt charLt_asymm s t h

theorem strLt_conn (s t : Token) (h1 : strLt s t = false) (h2 : strLt t s = false) :
    s = t :=
  lexLt_conn charLt charLt_conn s t h1 h2

theorem strLt_trans (s t u : Token) (h1 : strLt s t = true) (h2 : strLt t u = true) :
    strLt s u = true :=
  lexLt_trans charLt charLt_conn charLt_trans s t u h1 h2

/-- Irreflexivity of the string comparison. -/
theorem strLt_irrefl (s : Token) : strLt s s = false :=
  ltIrrefl strLt strLt_asymm s

theorem textLt_asymm (s t : List Token) (h : textLt s t = true) : textLt t s = false :=
  lexLt_asymm strLt strLt_asymm s t h

theorem textLt_conn (s t : List Token) (h1 : textLt s t = false)
    (h2 : textLt t s = false) : s = t :=
  lexLt_conn strLt strLt_conn s t h1 h2

theorem textLt_trans (s t u : List Token) (h1 : textLt s t = true)
    (h2 : textLt t u = true) : textLt s u = true :=
  lexLt_trans strLt strLt_conn strLt_trans s t u h1 h2

theorem textLt_append (d s t : List Token) : textLt (d ++ s) (d ++ t) = textLt s t :=
  lexLt_append strLt strLt_asymm d s t

/-! ### The sort comparator orders the registry -/

theorem cmdLe_trans (a b c : Command) (h1 : cmdLe a b = true) (h2 : cmdLe b c = true) :
    cmdLe a c = true := by
  rw [cmdLe, Bool.not_eq_true'] at h1 h2 ⊢
  cases h : textLt c.text a.text
  · rfl
  · cases hbc : textLt b.text c.text
    · rw [textLt_conn c.text b.text h2 hbc] at h
      rw [h] at h1
      exact h1
    · have := textLt_trans b.text c.text a.text hbc h
      rw [this] at h1
      exact h1

theorem cmdLe_total (a b : Command) : (cmdLe a b || cmdLe b a) = true := by
  cases h : textLt b.text a.text
  · simp [cmdLe, h]
  · simp [cmdLe, textLt_asymm b.text a.text h]

instance : IsTrans Command CmdLeP := ⟨fun a b c => cmdLe_trans a b c⟩

instance : IsTotal Command CmdLeP :=
  ⟨fun a b => by
    have h := cmdLe_total a b
    rcases Bool.or_eq_true_iff.mp h with h1 | h1
    · exact Or.inl h1
    · exact Or.inr h1⟩

/-- Resolution reorders the registry at most into sorted order: the commands
after `sort_` are a permutation of those before. -/
theorem sort_commands_perm (p : CommandsParser) :
    ((sort_ p).commands).Perm p.commands := by
  unfold sort_
  split
  · exact List.Perm.refl _
  · exact List.perm_insertionSort CmdLeP p.commands

/-- Whenever the sorted flag is clear (in particular after any registration),
`sort_` produces a list ordered by `cmdLe`. -/
theorem sort_commands_sorted (p : CommandsParser) (h : p.commands_is_sorted = false) :
    ((sort_ p).commands).Pairwise CmdLeP := by
  unfold sort_
  rw [h]
  simp only [Bool.false_eq_true, if_false]
  exact List.sorted_insertionSort CmdLeP p.commands

/-! ### The narrowing loop computes a filter of the sorted window

`std::lower_bound` / `std::upper_bound` demand a range partitioned by their
comparators.  On a window that is sorted and whose members all extend the
tokens consumed so far, both comparators are downward closed along the window,
so the `dropWhile` / `takeWhile` bounds cut out exactly the members whose next
token equals the input token. -/

theorem dropWhile_eq_filter_not {α : Type} (p : α → Bool) :
    ∀ l : List α, l.Pairwise (fun a b => p b = true → p a = true) →
      l.dropWhile p = l.filter fun x => !(p x) := by
  intro l
  induction l with
  | nil => intro _; rfl
  | cons c rest ih =>
    intro hp
    rw [List.pairwise_cons] at hp
    cases hc : p c with
    | true =>
      rw [List.dropWhile_cons, if_pos hc, List.filter_cons, ih hp.2]
      simp [hc]
    | false =>
      have hrest : (rest.filter fun x => !(p x)) = rest :=
        List.filter_eq_self.mpr (by
          intro x hx
          cases hpx : p x with
          | false => simp
          | true =>
            have hfc := hp.1 x hx hpx
            rw [hc] at hfc
            exact absurd hfc (by simp))
      rw [List.dropWhile_cons, if_neg (by simp [hc]), List.filter_cons]
      simp [hc, hrest]

theorem takeWhile_eq_filter_pw {α : Type} (q : α → Bool) :
    ∀ l : List α, l.Pairwise (fun a b => q b = true → q a = true) →
      l.takeWhile q = l.filter q := by
  intro l
  induction l with
  | nil => intro _; rfl
  | cons c rest ih =>
    intro hq
    rw [List.pairwise_cons] at hq
    cases hc : q c with
    | true => rw [List.takeWhile_cons, if_pos hc, List.filter_cons, if_pos hc, ih hq.2]
    | false =>
      rw [List.takeWhile_cons, if_neg (by simp [hc]), List.filter_cons,
        if_neg (by simp [hc])]
      symm
      rw [List.filter_eq_nil_iff]
      intro x hx hqx
      have hfc := hq.1 x hx hqx
      rw [hc] at hfc
      exact absurd hfc (by simp)

/-- Along the sorted order, the lower-bound comparator is downward closed on a
window of commands all extending the consumed tokens `done`: if it holds of a
later command it holds of any earlier one. -/
theorem lbLess_mono (key : Token) (done : List Token) (a b : Command)
    (ha : done <+: a.text) (hb : done <+: b.text) (hab : cmdLe a b = true)
    (h : lbLess key done.length b = true) : lbLess key done.length a = true := by
  obtain ⟨s, hs⟩ := ha
  obtain ⟨t, ht⟩ := hb
  rw [cmdLe, Bool.not_eq_true'] at hab
  rw [← hs, ← ht, textLt_append] at hab
  cases s with
  | nil =>
    rw [lbLess, if_neg (by rw [← hs]; simp)]
  | cons a0 s2 =>
    cases t with
    | nil => exact absurd hab (by simp [textLt, lexLt])
    | cons b0 t2 =>
      have hba : strLt b0 a0 = false := by
        cases hba : strLt b0 a0
        · rfl
        · rw [textLt, lexLt_cons, hba] at hab
          simp at hab
      have hblen : done.length < b.text.length := by rw [← ht]; simp
      rw [lbLess, if_pos hblen, ← ht,
        List.getD_append_right _ _ _ _ (le_refl done.length)] at h
      simp only [Nat.sub_self, List.getD_cons_zero] at h
      have halen : done.length < a.text.length := by rw [← hs]; simp
      rw [lbLess, if_pos halen, ← hs,
        List.getD_append_right _ _ _ _ (le_refl done.length)]
      simp only [Nat.sub_self, List.getD_cons_zero]
      cases hab0 : strLt a0 b0 with
      | true => exact strLt_trans a0 b0 key hab0 h
      | false => rw [strLt_conn a0 b0 hab0 hba]; exact h

/-- Along the sorted order, the negated upper-bound comparator is downward
closed on a window of commands all extending the consumed tokens `done`. -/
theorem ubKeep_mono (key : Token) (done : List Token) (a b : Command)
    (ha : done <+: a.text) (hb : done <+: b.text) (hab : cmdLe a b = true)
    (h : (!(ubGreater key done.length b)) = true) :
    (!(ubGreater key done.length a)) = true := by
  obtain ⟨s, hs⟩ := ha
  obtain ⟨t, ht⟩ := hb
  rw [Bool.not_eq_true'] at h ⊢
  rw [cmdLe, Bool.not_eq_true'] at hab
  rw [← hs, ← ht, textLt_append] at hab
  cases s with
  | nil =>
    rw [ubGreater, if_neg (by rw [← hs]; simp)]
  | cons a0 s2 =>
    cases t with
    | nil => exact absurd hab (by simp [textLt, lexLt])
    | cons b0 t2 =>
      have hba : strLt b0 a0 = false := by
        cases hba : strLt b0 a0
        · rfl
        · rw [textLt, lexLt_cons, hba] at hab
          simp at hab
      have hblen : done.length < b.text.length := by rw [← ht]; simp
      rw [ubGreater, if_pos hblen, ← ht,
        List.getD_append_right _ _ _ _ (le_refl done.length)] at h
      simp only [Nat.sub_self, List.getD_cons_zero] at h
      have halen : done.length < a.text.length := by rw [← hs]; simp
      rw [ubGreater, if_pos halen, ← hs,
        List.getD_append_right _ _ _ _ (le_refl done.length)]
      simp only [Nat.sub_self, List.getD_cons_zero]
      cases hg : strLt key a0 with
      | false => rfl
      | true =>
        exfalso
        cases hab0 : strLt a0 b0 with
        | true =>
          have := strLt_trans key a0 b0 hg hab0
          rw [this] at h
          exact absurd h (by simp)
        | false =>
          rw [strLt_conn a0 b0 hab0 hba] at hg
          rw [hg] at h
          exact absurd h (by simp)

/-- On a command extending the consumed tokens `done`, surviving both bound
comparators at this position is exactly extending `done ++ [key]`. -/
theorem keep_eq_extend (key : Token) (done : List Token) (c : Command)
    (hc : done <+: c.text) :
    ((!(lbLess key done.length c)) && !(ubGreater key done.length c))
      = (done ++ [key]).isPrefixOf c.text := by
  obtain ⟨t, ht⟩ := hc
  cases t with
  | nil =>
    have hlen : ¬(done.length < c.text.length) := by rw [← ht]; simp
    have hnp : ¬((done ++ [key]) <+: c.text) := by
      intro hpre
      have hle := hpre.length_le
      rw [← ht] at hle
      simp at hle
    have hrhs : (done ++ [key]).isPrefixOf c.text = false := by
      cases hx : (done ++ [key]).isPrefixOf c.text
      · rfl
      · exact absurd (List.isPrefixOf_iff_prefix.mp hx) hnp
    rw [hrhs, lbLess, if_neg hlen]
    rfl
  | cons t0 t2 =>
    have hlen : done.length < c.text.length := by rw [← ht]; simp
    rw [lbLess, ubGreater, if_pos hlen, if_pos hlen, ← ht,
      List.getD_append_right _ _ _ _ (le_refl done.length)]
    simp only [Nat.sub_self, List.getD_cons_zero]
    rw [Bool.eq_iff_iff]
    constructor
    · intro hand
      obtain ⟨h1, h2⟩ := Bool.and_eq_true_iff.mp hand
      rw [Bool.not_eq_true'] at h1 h2
      have hk : t0 = key := strLt_conn t0 key h1 h2
      rw [List.isPrefixOf_iff_prefix, ← hk, List.prefix_append_right_inj,
        List.cons_prefix_cons]
      exact ⟨rfl, List.nil_prefix⟩
    · intro hiso
      rw [List.isPrefixOf_iff_prefix, List.prefix_append_right_inj,
        List.cons_prefix_cons] at hiso
      rw [← hiso.1, strLt_irrefl]
      simp

/-- One narrowing step: on a sorted window whose members all extend `done`,
the lower-bound/upper-bound pair for input token `key` at position
`done.length` leaves exactly the members extending `done ++ [key]`. -/
theorem window_step (key : Token) (done : List Token) (w : List Command)
    (hs : w.Pairwise CmdLeP)
    (hw : ∀ c ∈ w, done <+: c.text) :
    ((w.dropWhile (lbLess key done.length)).takeWhile
        fun c => !(ubGreater key done.length c))
      = w.filter fun c => (done ++ [key]).isPrefixOf c.text := by
  have hdrop : w.dropWhile (lbLess key done.length)
      = w.filter fun c => !(lbLess key done.length c) :=
    dropWhile_eq_filter_not _ w
      (hs.imp_of_mem fun {a b} hma hmb hab h =>
        lbLess_mono key done a b (hw a hma) (hw b hmb) hab h)
  have htake : ((w.filter fun c => !(lbLess key done.length c)).takeWhile
        fun c => !(ubGreater key done.length c))
      = ((w.filter fun c => !(lbLess key done.length c)).filter
          fun c => !(ubGreater key done.length c)) :=
    takeWhile_eq_filter_pw _ _
      ((hs.filter _).imp_of_mem fun {a b} hma hmb hab h =>
        ubKeep_mono key done a b (hw a (List.mem_of_mem_filter hma))
          (hw b (List.mem_of_mem_filter hmb)) hab h)
  rw [hdrop, htake, List.filter_filter]
  exact List.filter_congr fun c hc => by
    rw [Bool.and_comm]
    exact keep_eq_extend key done c (hw c hc)

theorem nil_isPrefixOf_true {α : Type} [BEq α] (l : List α) :
    ([] : List α).isPrefixOf l = true := by
  cases l <;> rfl

theorem recognizeLoop_nil_window (toks : List Token) (k : Nat) :
    recognizeLoop toks k [] = none := by
  cases toks <;> simp [recognizeLoop]

theorem recognizeLoop_cons (key : Token) (rest : List Token) (k : Nat)
    (w : List Command) :
    recognizeLoop (key :: rest) k w
      = recognizeLoop rest (k + 1)
          ((w.dropWhile (lbLess key k)).takeWhile fun c => !(ubGreater key k c)) := by
  cases h1 : (w.dropWhile (lbLess key k)).isEmpty with
  | true =>
    rw [List.isEmpty_iff] at h1
    simp [recognizeLoop, h1, recognizeLoop_nil_window]
  | false =>
    cases h2 : ((w.dropWhile (lbLess key k)).takeWhile
        fun c => !(ubGreater key k c)).isEmpty with
    | true =>
      rw [List.isEmpty_iff] at h2
      simp [recognizeLoop, h1, h2, recognizeLoop_nil_window]
    | false =>
      simp [recognizeLoop, h1, h2]

/-- The loop invariant, closed form: starting from the window of all sorted
definitions extending the consumed tokens `done`, the loop returns the sole
definition extending `done ++ toks`, or null. -/
theorem recognizeLoop_filter (toks : List Token) :
    ∀ (done : List Token) (S : List Command), S.Pairwise CmdLeP →
      recognizeLoop toks done.length (S.filter fun c => done.isPrefixOf c.text)
        = (if (S.filter fun c => (done ++ toks).isPrefixOf c.text).length = 1
           then (S.filter fun c => (done ++ toks).isPrefixOf c.text).head?
           else none) := by
  induction toks with
  | nil =>
    intro done S _
    simp [recognizeLoop]
  | cons key rest ih =>
    intro done S hS
    rw [recognizeLoop_cons]
    have hw : ∀ c ∈ S.filter fun c => done.isPrefixOf c.text, done <+: c.text := by
      intro c hc
      exact List.isPrefixOf_iff_prefix.mp (List.mem_filter.mp hc).2
    rw [window_step key done _ (hS.filter _) hw, List.filter_filter]
    have hcmb : (S.filter fun a => (done ++ [key]).isPrefixOf a.text
          && done.isPrefixOf a.text)
        = S.filter fun a => (done ++ [key]).isPrefixOf a.text := by
      apply List.filter_congr
      intro a _
      cases hpa : (done ++ [key]).isPrefixOf a.text with
      | false => simp
      | true =>
        have h2 : done.isPrefixOf a.text = true := by
          rw [List.isPrefixOf_iff_prefix] at hpa ⊢
          exact (List.prefix_append done [key]).trans hpa
        simp [h2]
    rw [hcmb]
    have hlen : done.length + 1 = (done ++ [key]).length := by simp
    rw [hlen, ih (done ++ [key]) S hS]
    have happ : (done ++ [key]) ++ rest = done ++ (key :: rest) := by simp
    rw [happ]

/-- Characterization of `recognize_command` on a sorted registry: the final
candidate window is exactly the set of registered definitions whose token
sequence the input is a prefix of, and the call returns the sole such
definition, or null. -/
theorem recognize_command_eq (p : CommandsParser) (toks : List Token)
    (hs : ((sort_ p).commands).Pairwise CmdLeP) :
    (recognize_command p toks).fst
      = (if ((sort_ p).commands.filter fun c => toks.isPrefixOf c.text).length = 1
         then ((sort_ p).commands.filter fun c => toks.isPrefixOf c.text).head?
         else none) := by
  have h0 := recognizeLoop_filter toks [] (sort_ p).commands hs
  have hful : ((sort_ p).commands.filter fun c => ([] : List Token).isPrefixOf c.text)
      = (sort_ p).commands :=
    List.filter_eq_self.mpr fun c _ => nil_isPrefixOf_true c.text
  rw [hful] at h0
  simp only [List.nil_append] at h0
  exact h0

/-! ### Helper lemmas shared by the claim theorems -/

theorem filter_eq_single_of_unique {α : Type} (pred : α → Bool) :
    ∀ (l : List α) (c : α), l.Pairwise (fun a b => a ≠ b) → c ∈ l → pred c = true →
      (∀ d ∈ l, pred d = true → d = c) → l.filter pred = [c] := by
  intro l
  induction l with
  | nil => intro c _ hc; exact absurd hc (List.not_mem_nil c)
  | cons x rest ih =>
    intro c hnd hc hpc hun
    rw [List.pairwise_cons] at hnd
    rcases List.mem_cons.mp hc with rfl | hx
    · rw [List.filter_cons, if_pos hpc]
      have hrest : rest.filter pred = [] := by
        rw [List.filter_eq_nil_iff]
        intro d hd hpd
        have hdc : d = c := hun d (List.mem_cons_of_mem _ hd) hpd
        exact hnd.1 d hd hdc.symm
      rw [hrest]
    · cases hpx : pred x with
      | true =>
        exfalso
        have hxc : x = c := hun x (List.mem_cons_self x rest) hpx
        exact hnd.1 c hx hxc
      | false =>
        rw [List.filter_cons, if_neg (by simp [hpx])]
        exact ih c hnd.2 hx hpc fun d hd hpd => hun d (List.mem_cons_of_mem _ hd) hpd

theorem if_single_eq_some {α : Type} (F : List α) (c : α)
    (h : (if F.length = 1 then F.head? else none) = some c) : F = [c] := by
  by_cases hl : F.length = 1
  · rw [if_pos hl] at h
    obtain ⟨a, ha⟩ := List.length_eq_one.mp hl
    subst ha
    simp at h
    rw [h]
  · rw [if_neg hl] at h
    exact absurd h (by simp)

/-! ### The claims -/

/-- Claim C1 is false of the code: with only `user create` registered, the
input `user` leaves exactly one candidate whose token sequence is strictly
longer than the input, yet `recognize_command` returns that candidate
(`Resolved`), not null (`NoMatch`) — the final test in the source is only
`std::distance(it_begin, it_end) == 1`, with no length comparison. -/
theorem truncated_input_resolves_counterexample :
    ((sort_ singleParser).commands.filter
        fun x => (["user".data] : List Token).isPrefixOf x.text) = [userCreateCmd]
      ∧ 1 < userCreateCmd.text.length
      ∧ (recognize_command singleParser ["user".data]).fst = some userCreateCmd :=
  ⟨by decide, by decide, by decide⟩

/-- Claim C1 (amended): when after consuming all input tokens exactly one
registered definition remains a candidate and its token sequence is strictly
longer than the input, resolve returns `Resolved` with that definition — an
incomplete command is matched, not rejected. -/
theorem resolve_unique_candidate_resolved (p : CommandsParser) (toks : List Token)
    (c : Command) (hs : ((sort_ p).commands).Pairwise CmdLeP)
    (hone : ((sort_ p).commands.filter fun x => toks.isPrefixOf x.text) = [c])
    (hlong : toks.length < c.text.length) :
    (recognize_command p toks).fst = some c := by
  rw [recognize_command_eq p toks hs, hone]
  rfl

/-- Witness for C1 (amended) at the singleton registry and input `user`. -/
theorem resolve_unique_candidate_resolved_witness :
    (recognize_command singleParser ["user".data]).fst = some userCreateCmd :=
  resolve_unique_candidate_resolved singleParser ["user".data] userCreateCmd
    (by decide) (by decide) (by decide)

/-- Claim C2 is false of the code: with both a standalone `user` and
`user create` registered (pairwise-distinct token sequences), the input
`user` equals the standalone definition's tokens exactly, yet resolve
returns null — both definitions stay in the final window, whose size is 2. -/
theorem exact_match_shadowed_counterexample :
    shadowParser.commands.Pairwise (fun a b => a.text ≠ b.text)
      ∧ (∃ d ∈ shadowParser.commands, d.text = [("user".data : Token)])
      ∧ (recognize_command shadowParser ["user".data]).fst = none :=
  ⟨by decide, by decide, by decide⟩

/-- Claim C2 (amended): an input that exactly equals some registered
definition's tokens resolves to that definition provided no other registered
definition extends the input (has it as a prefix); with a strict extension
registered alongside, the shorter exact input yields null instead. -/
theorem resolve_exact_unshadowed (p : CommandsParser) (toks : List Token) (c : Command)
    (hs : ((sort_ p).commands).Pairwise CmdLeP)
    (hdist : p.commands.Pairwise fun a b => a.text ≠ b.text)
    (hmem : c ∈ p.commands) (hexact : c.text = toks)
    (hnoext : ∀ d ∈ p.commands, toks.isPrefixOf d.text = true → d = c) :
    (recognize_command p toks).fst = some c := by
  rw [recognize_command_eq p toks hs]
  have hperm := sort_commands_perm p
  have hmem2 : c ∈ (sort_ p).commands := hperm.mem_iff.mpr hmem
  have hnd : ((sort_ p).commands).Pairwise fun a b => a ≠ b := by
    have hndp : p.commands.Pairwise (fun a b : Command => a ≠ b) :=
      hdist.imp fun hab heq => hab (congrArg Command.text heq)
    exact (hperm.pairwise_iff fun h => h.symm).mpr hndp
  have hpc : toks.isPrefixOf c.text = true := by
    rw [hexact]
    exact List.isPrefixOf_iff_prefix.mpr (List.prefix_refl _)
  have hfil : ((sort_ p).commands.filter fun x => toks.isPrefixOf x.text) = [c] :=
    filter_eq_single_of_unique _ _ c hnd hmem2 hpc
      fun d hd hpd => hnoext d (hperm.mem_iff.mp hd) hpd
  rw [hfil]
  rfl

/-- Witness for C2 (amended) at the three-command registry of
`register_commands()` and input `user create`. -/
theorem resolve_exact_unshadowed_witness :
    (recognize_command mainParser ["user".data, "create".data]).fst = some userCreateCmd :=
  resolve_exact_unshadowed mainParser ["user".data, "create".data] userCreateCmd
    (by decide) (by decide) (by decide) (by decide) (by decide)

/-- Claim C3 is false of the code: `user` leaves three candidates in the
registry of `register_commands()` and resolve returns null — the very value
returned for `frob`, which matches nothing.  The `const Command*` result has
no third state, so the caller cannot distinguish ambiguity from no match. -/
theorem ambiguous_indistinguishable_counterexample :
    1 < ((sort_ mainParser).commands.filter
        fun x => (["user".data] : List Token).isPrefixOf x.text).length
      ∧ (recognize_command mainParser ["user".data]).fst = none
      ∧ (recognize_command mainParser ["frob".data]).fst = none
      ∧ ((sort_ mainParser).commands.filter
          fun x => (["frob".data] : List Token).isPrefixOf x.text).length = 0 :=
  ⟨by decide, by decide, by decide, by decide⟩

/-- Claim C3 (amended): when more than one registered definition remains a
candidate after all input tokens, resolve returns no command — the same null
value as for no match, with no outcome the caller could tell apart. -/
theorem resolve_many_candidates_null (p : CommandsParser) (toks : List Token)
    (hs : ((sort_ p).commands).Pairwise CmdLeP)
    (hamb : 1 < ((sort_ p).commands.filter fun x => toks.isPrefixOf x.text).length) :
    (recognize_command p toks).fst = none := by
  rw [recognize_command_eq p toks hs, if_neg (by omega)]

/-- Witness for C3 (amended) at the three-command registry and input `user`. -/
theorem resolve_many_candidates_null_witness :
    (recognize_command mainParser ["user".data]).fst = none :=
  resolve_many_candidates_null mainParser ["user".data] (by decide) (by decide)

/-- Claim C4 is false of the code: `register_command` performs no duplicate
check — registering `user create` into a registry that already holds it
succeeds and appends a second copy. -/
theorem duplicate_registration_counterexample :
    (∃ d ∈ singleParser.commands, d.text = ["user".data, ("create".data : Token)])
      ∧ register_command singleParser 0 ["user".data, "create".data] "create a new user"
          = .ok { commands := [userCreateCmd, userCreateCmd], commands_is_sorted := false } :=
  ⟨by decide, rfl⟩

/-- Claim C4 (amended): registering a definition whose (non-empty) token
sequence is identical to an already-registered one does not fail — the call
succeeds and silently appends the duplicate to the registry. -/
theorem register_duplicate_accepted (p : CommandsParser) (command_id : Nat)
    (tokens : List Token) (help : String) (hne : tokens ≠ [])
    (hdup : ∃ d ∈ p.commands, d.text = tokens) :
    register_command p command_id tokens help
      = .ok { commands := p.commands ++ [{ id := command_id, text := tokens, help := help }],
              commands_is_sorted := false } := by
  rw [register_command, if_neg (by simp [List.isEmpty_iff, hne])]

/-- Witness for C4 (amended): the second registration of `user create`. -/
theorem register_duplicate_accepted_witness :
    register_command singleParser 0 ["user".data, "create".data] "create a new user"
      = .ok { commands := [userCreateCmd, userCreateCmd], commands_is_sorted := false } :=
  register_duplicate_accepted singleParser 0 ["user".data, "create".data]
    "create a new user" (by decide) ⟨userCreateCmd, by decide, by decide⟩

/-- Claim C5 is false of the code: on a registry holding exactly one command,
the empty input leaves the whole (one-element) window and resolve returns
that command rather than null. -/
theorem empty_input_singleton_counterexample :
    singleParser.commands.length = 1
      ∧ (recognize_command singleParser []).fst = some userCreateCmd :=
  ⟨by decide, by decide⟩

/-- Claim C5 (amended): resolving the empty input returns no command unless
the registry holds exactly one definition, in which case that definition is
returned. -/
theorem resolve_empty_input (p : CommandsParser)
    (hs : ((sort_ p).commands).Pairwise CmdLeP) :
    (recognize_command p []).fst
      = if p.commands.length = 1 then p.commands.head? else none := by
  rw [recognize_command_eq p [] hs]
  have hful : ((sort_ p).commands.filter fun c => ([] : List Token).isPrefixOf c.text)
      = (sort_ p).commands := List.filter_eq_self.mpr fun c _ => nil_isPrefixOf_true c.text
  rw [hful]
  have hperm := sort_commands_perm p
  rw [hperm.length_eq]
  by_cases hl : p.commands.length = 1
  · rw [if_pos hl, if_pos hl]
    obtain ⟨a, ha⟩ := List.length_eq_one.mp hl
    have hsl : (sort_ p).commands = [a] := by
      rw [← List.perm_singleton]
      rw [ha] at hperm
      exact hperm
    rw [hsl, ha]
  · rw [if_neg hl, if_neg hl]

/-- Witness for C5 (amended) at the three-command registry. -/
theorem resolve_empty_input_witness :
    (recognize_command mainParser []).fst
      = if mainParser.commands.length = 1 then mainParser.commands.head? else none :=
  resolve_empty_input mainParser (by decide)

/-- Claim C6 is false of the code: with only `user create` registered, the
full input `user create` resolves to it, and so does its strict prefix
`user` — the prefix does not resolve to null or an ambiguity. -/
theorem prefix_law_counterexample :
    (recognize_command singleParser ["user".data, "create".data]).fst = some userCreateCmd
      ∧ (["user".data] : List Token).isPrefixOf ["user".data, "create".data] = true
      ∧ (["user".data] : List Token) ≠ ["user".data, "create".data]
      ∧ (recognize_command singleParser ["user".data]).fst = some userCreateCmd :=
  ⟨by decide, by decide, by decide, by decide⟩

/-- Claim C6 (amended): if input `T` resolves to `Resolved(c)`, then every
strict prefix of `T` resolves either to null or to that same command `c` —
never to a different command. -/
theorem resolve_ancestor_same_or_null (p : CommandsParser) (T P : List Token)
    (c : Command) (hs : ((sort_ p).commands).Pairwise CmdLeP)
    (hres : (recognize_command p T).fst = some c)
    (hpre : P.isPrefixOf T = true) (hne : P ≠ T) :
    (recognize_command p P).fst = none ∨ (recognize_command p P).fst = some c := by
  rw [recognize_command_eq p T hs] at hres
  have hT : ((sort_ p).commands.filter fun x => T.isPrefixOf x.text) = [c] :=
    if_single_eq_some _ c hres
  have hcT : c ∈ (sort_ p).commands.filter fun x => T.isPrefixOf x.text := by
    rw [hT]
    exact List.mem_singleton.mpr rfl
  obtain ⟨hcmem, hcTp⟩ := List.mem_filter.mp hcT
  have hcP : P.isPrefixOf c.text = true := by
    rw [List.isPrefixOf_iff_prefix] at hpre hcTp ⊢
    exact hpre.trans hcTp
  have hcF : c ∈ (sort_ p).commands.filter fun x => P.isPrefixOf x.text :=
    List.mem_filter.mpr ⟨hcmem, hcP⟩
  rw [recognize_command_eq p P hs]
  by_cases hl : ((sort_ p).commands.filter fun x => P.isPrefixOf x.text).length = 1
  · right
    rw [if_pos hl]
    obtain ⟨a, ha⟩ := List.length_eq_one.mp hl
    rw [ha] at hcF ⊢
    rw [← List.mem_singleton.mp hcF]
    rfl
  · left
    rw [if_neg hl]

/-- Witness for C6 (amended): `user create` resolves on the singleton
registry, and its strict prefix `user` resolves to the same command. -/
theorem resolve_ancestor_same_or_null_witness :
    (recognize_command singleParser ["user".data]).fst = none
      ∨ (recognize_command singleParser ["user".data]).fst = some userCreateCmd :=
  resolve_ancestor_same_or_null singleParser ["user".data, "create".data] ["user".data]
    userCreateCmd (by decide) (by decide) (by decide) (by decide)

/-- Claim C7 (confirmed): when the input is strictly longer than every
registered definition it agrees with (every definition that is consistent
with the input position-by-position, i.e. one token sequence extends the
other), resolve returns null — a definition shorter than the current token
position drops out of the candidate window and never matches an input longer
than its own token sequence. -/
theorem resolve_overlong_null (p : CommandsParser) (toks : List Token)
    (hs : ((sort_ p).commands).Pairwise CmdLeP)
    (hover : ∀ d ∈ p.commands, agreesTok toks d.text = true → d.text.length < toks.length) :
    (recognize_command p toks).fst = none := by
  rw [recognize_command_eq p toks hs]
  have hnil : ((sort_ p).commands.filter fun c => toks.isPrefixOf c.text) = [] := by
    rw [List.filter_eq_nil_iff]
    intro d hd hpd
    have hdm : d ∈ p.commands := (sort_commands_perm p).mem_iff.mp hd
    have hag : agreesTok toks d.text = true := by
      rw [agreesTok, hpd]
      rfl
    have hlt := hover d hdm hag
    have hle := (List.isPrefixOf_iff_prefix.mp hpd).length_le
    omega
  rw [hnil]
  simp

/-- Witness for C7 at the three-command registry with input
`user create now`, which extends past `user create`. -/
theorem resolve_overlong_null_witness :
    (recognize_command mainParser ["user".data, "create".data, "now".data]).fst = none :=
  resolve_overlong_null mainParser ["user".data, "create".data, "now".data]
    (by decide) (by decide)

/-- Claim C8 (confirmed): registering an empty token sequence fails with
`EmptyTokens` (the `std::logic_error` of `Command::Command`); since the error
propagates out of `register_command` before the `push_back`, the failing call
adds nothing — in this model the caller's registry value is untouched because
no new state is returned. -/
theorem register_empty_tokens_fails (p : CommandsParser) (command_id : Nat)
    (help : String) :
    register_command p command_id [] help = .error .EmptyTokens := rfl

/-- Claim C9 is false of the code as stated: `recognize_command` calls
`sort_`, which reorders the vector `commands_` in place and sets the sorted
flag, so the registry state after the first resolution differs from the state
before it. -/
theorem resolve_mutates_registry_counterexample :
    (recognize_command unsortedParser ["user".data, "info".data]).snd ≠ unsortedParser
      ∧ (recognize_command unsortedParser ["user".data, "info".data]).snd
          = { commands := [userCreateCmd, userDeleteCmd], commands_is_sorted := true } :=
  ⟨by decide, by decide⟩

/-- Claim C9 (amended): resolution adds, removes and alters no definition —
after any `recognize_command` call the registry holds a permutation (the
sorted arrangement) of the definitions held before, with the sorted flag
set. -/
theorem resolve_preserves_definitions (p : CommandsParser) (toks : List Token) :
    ((recognize_command p toks).snd.commands).Perm p.commands
      ∧ (recognize_command p toks).snd.commands_is_sorted = true := by
  constructor
  · exact sort_commands_perm p
  · show (sort_ p).commands_is_sorted = true
    unfold sort_
    split
    · assumption
    · rfl

/-- Claim C10 (confirmed): whenever resolve returns a command, that command
is registered, the input is no longer than its token sequence, and the input
token at every position below the input length equals the command's token
there — the input is a prefix of the returned command's token sequence. -/
theorem resolve_sound (p : CommandsParser) (toks : List Token) (c : Command)
    (hs : ((sort_ p).commands).Pairwise CmdLeP)
    (hres : (recognize_command p toks).fst = some c) :
    c ∈ p.commands ∧ toks.length ≤ c.text.length
      ∧ ∀ k, k < toks.length → toks.getD k [] = c.text.getD k [] := by
  rw [recognize_command_eq p toks hs] at hres
  have hF : ((sort_ p).commands.filter fun x => toks.isPrefixOf x.text) = [c] :=
    if_single_eq_some _ c hres
  have hcF : c ∈ (sort_ p).commands.filter fun x => toks.isPrefixOf x.text := by
    rw [hF]
    exact List.mem_singleton.mpr rfl
  obtain ⟨hcm, hcp⟩ := List.mem_filter.mp hcF
  have hpre : toks <+: c.text := List.isPrefixOf_iff_prefix.mp hcp
  refine ⟨(sort_commands_perm p).mem_iff.mp hcm, hpre.length_le, ?_⟩
  intro k hk
  obtain ⟨t, ht⟩ := hpre
  rw [← ht, List.getD_append toks t [] k hk]

/-- Witness for C10 at the three-command registry and input `user delete`. -/
theorem resolve_sound_witness :
    userDeleteCmd ∈ mainParser.commands
      ∧ (["user".data, "delete".data] : List Token).length ≤ userDeleteCmd.text.length
      ∧ ∀ k, k < (["user".data, "delete".data] : List Token).length →
          (["user".data, "delete".data] : List Token).getD k []
            = userDeleteCmd.text.getD k [] :=
  resolve_sound mainParser ["user".data, "delete".data] userDeleteCmd
    (by decide) (by decide)

end RadosgwAdmin
